import Mathlib

/-!
Verification of the Huffman codec in src/huff.py (class HuffmanCoding).

The Python code is shallowly embedded: symbols are Lean Char, Python
bit strings (strings over '0'/'1') are List Char, Python dicts are
functions into Option, Python bytes are List Nat (each element a byte
value), and Python exceptions are the error side of Except PyErr.
Method names follow the source.
-/

namespace Huff

/-- A bit character of a Python bit string: '0' or '1'. -/
def isBit (c : Char) : Bool := c = '0' || c = '1'

/-- Errors.  indexError, valueError and keyError model the Python
built-in exceptions the source can raise (heap[0] on an empty list,
int("",2), missing dict key).  emptyInputError and corruptStreamError
are modelled from the spec: its §7 error taxonomy names them, but no
such classes exist in the source; they are present only so that claims
naming them can be stated and compared with what the code raises. -/
inductive PyErr where
  | indexError
  | valueError
  | keyError
  | emptyInputError
  | corruptStreamError
deriving DecidableEq

/-- Decidable equality for Except values, so concrete runs of the codec
can be checked by decide. -/
instance {e a : Type} [DecidableEq e] [DecidableEq a] :
    DecidableEq (Except e a) := fun x y =>
  match x, y with
  | .error e1, .error e2 => decidable_of_iff (e1 = e2) (by simp)
  | .ok a1, .ok a2 => decidable_of_iff (a1 = a2) (by simp)
  | .error _, .ok _ => isFalse (by simp)
  | .ok _, .error _ => isFalse (by simp)

/-- Mirrors class Node in src/huff.py: char (None for internal nodes),
freq, left, right.  Python's None child is the nil constructor. -/
inductive Tree where
  | nil : Tree
  | node (char : Option Char) (freq : Nat) (left right : Tree) : Tree
deriving DecidableEq

/-- The freq field used by Node.__lt__ (never read on nil). -/
def Tree.freq : Tree → Nat
  | .nil => 0
  | .node _ f _ _ => f

/-- All chars stored in char fields, in preorder. -/
def Tree.chars : Tree → List Char
  | .nil => []
  | .node c _ l r =>
      (match c with | some ch => [ch] | none => []) ++ l.chars ++ r.chars

/-- The two dicts a HuffmanCoding instance holds: self.codes and
self.reverse_mapping (both start empty in __init__). -/
structure HuffmanCoding where
  codes : Char → Option (List Char)
  reverse_mapping : List Char → Option Char

/-- HuffmanCoding.__init__: both dicts empty. -/
def HuffmanCoding.init : HuffmanCoding := ⟨fun _ => none, fun _ => none⟩

/-- Python dict assignment d[k] = v. -/
def upd {α β : Type} [DecidableEq α] (m : α → Option β) (k : α) (v : β) :
    α → Option β :=
  fun x => if x = k then some v else m x

/-- The keys of a text's Counter in first-occurrence order (Python dicts
iterate in insertion order). -/
def firstOcc : List Char → List Char
  | [] => []
  | c :: cs => c :: (firstOcc cs).filter (fun x => x ≠ c)

/-- build_frequency_dict: Counter(text) as an association list in
first-occurrence order. -/
def build_frequency_dict (text : List Char) : List (Char × Nat) :=
  (firstOcc text).map (fun c => (c, text.count c))

/-- Modelled from the spec: Python's stdlib heapq.heapify (library code,
not part of this repository).  The spec asks only for a min-priority
queue with a deterministic tie-break; in this model the pop operation
scans for the first minimum, so heapify is the identity on the list. -/
def heapify (l : List Tree) : List Tree := l

/-- build_heap: one leaf Node per (char, freq) item, then heapify. -/
def build_heap (frequency : List (Char × Nat)) : List Tree :=
  heapify (frequency.map (fun p => Tree.node (some p.1) p.2 .nil .nil))

/-- Modelled from the spec: heapq.heappop.  Extracts the first
element of minimal freq (Node.__lt__ compares freq only; ties broken
deterministically by position). -/
def popMin : List Tree → Option (Tree × List Tree)
  | [] => none
  | t :: ts =>
    match popMin ts with
    | none => some (t, [])
    | some (m, rest) =>
        if t.freq ≤ m.freq then some (t, ts) else some (m, t :: rest)

/-- Modelled from the spec: heapq.heappush adds one element to the
queue. -/
def heappush (l : List Tree) (t : Tree) : List Tree := l ++ [t]

/-- The while-loop of merge_nodes: while len(heap) > 1, pop two nodes,
merge them into an internal Node (char None, summed freq, left = first
popped, right = second popped) and push it back.  Fuel bounds the
iteration count; heap.length is always enough. -/
def mergeLoop : Nat → List Tree → List Tree
  | 0, heap => heap
  | fuel + 1, heap =>
    match popMin heap with
    | none => heap
    | some (n1, rest1) =>
      match popMin rest1 with
      | none => heap
      | some (n2, rest2) =>
          mergeLoop fuel (heappush rest2 (Tree.node none (n1.freq + n2.freq) n1 n2))

/-- merge_nodes: run the merge loop, then return heap[0]; on an empty
heap that subscript raises IndexError. -/
def merge_nodes (heap : List Tree) : Except PyErr Tree :=
  match (mergeLoop heap.length heap).head? with
  | some t => .ok t
  | none => .error .indexError

/-- build_codes_helper: preorder walk threading current_code; at a node
whose char is not None it records codes[char] = current_code and
reverse_mapping[current_code] = char, then recurses left with
current_code + "0" and right with current_code + "1". -/
def build_codes_helper : Tree → List Char → HuffmanCoding → HuffmanCoding
  | .nil, _, st => st
  | .node c _ l r, cur, st =>
    let st1 := match c with
      | some ch => ⟨upd st.codes ch cur, upd st.reverse_mapping cur ch⟩
      | none => st
    let st2 := build_codes_helper l (cur ++ ['0']) st1
    build_codes_helper r (cur ++ ['1']) st2

/-- build_codes: the helper from the root with empty current_code. -/
def build_codes (st : HuffmanCoding) (root : Tree) : HuffmanCoding :=
  build_codes_helper root [] st

/-- get_encoded_text: concatenate self.codes[char] over the text; a
missing key raises KeyError. -/
def get_encoded_text (codes : Char → Option (List Char)) :
    List Char → Except PyErr (List Char)
  | [] => .ok []
  | c :: cs =>
    match codes c with
    | none => .error .keyError
    | some code =>
      match get_encoded_text codes cs with
      | .error e => .error e
      | .ok rest => .ok (code ++ rest)

/-- The digit-producing loop behind bin(n)[2:], with fuel (n is enough
fuel since n/2 strictly decreases). -/
def natToBitsGo : Nat → Nat → List Char
  | 0, _ => []
  | fuel + 1, n =>
      if n = 0 then []
      else natToBitsGo fuel (n / 2) ++ [if n % 2 = 1 then '1' else '0']

/-- bin(n)[2:]: minimal binary digits of n, "0" for 0. -/
def natToBits (n : Nat) : List Char :=
  if n = 0 then ['0'] else natToBitsGo n n

/-- s.rjust(8, '0'). -/
def rjust8 (s : List Char) : List Char :=
  List.replicate (8 - s.length) '0' ++ s

/-- bin(byte)[2:].rjust(8, '0') as used in decompress; also computes
f"\x7bn:08b\x7d" for n < 256 as used in pad_encoded_text. -/
def byteToBits (b : Nat) : List Char := rjust8 (natToBits b)

/-- The numeric value of a binary digit string, MSB first. -/
def bitsVal (s : List Char) : Nat :=
  s.foldl (fun a c => 2 * a + (if c = '1' then 1 else 0)) 0

/-- int(s, 2): ValueError on an empty or non-binary string. -/
def bitsToNat (s : List Char) : Except PyErr Nat :=
  if s ≠ [] ∧ s.all isBit then .ok (bitsVal s) else .error .valueError

/-- pad_encoded_text: extra_padding = 8 - len % 8 (between 1 and 8),
prepend its 8-bit header, append that many '0'. -/
def pad_encoded_text (encoded_text : List Char) : List Char :=
  let extra_padding := 8 - encoded_text.length % 8
  byteToBits extra_padding ++ encoded_text ++ List.replicate extra_padding '0'

/-- The byte-packing loop of compress: int(padded[i:i+8], 2) for each
8-char chunk.  Fuel bounds the chunk count; s.length is enough. -/
def packBytesGo : Nat → List Char → Except PyErr (List Nat)
  | _, [] => .ok []
  | 0, _ :: _ => .ok []
  | fuel + 1, c :: cs =>
    match bitsToNat ((c :: cs).take 8) with
    | .error e => .error e
    | .ok byte =>
      match packBytesGo fuel ((c :: cs).drop 8) with
      | .error e => .error e
      | .ok rest => .ok (byte :: rest)

/-- Pack a padded bit string into bytes, 8 bits per byte, MSB first. -/
def packBytes (s : List Char) : Except PyErr (List Nat) :=
  packBytesGo s.length s

/-- compress: frequency dict, heap, merge to a root, build codes
(mutating the instance's dicts), encode, pad, pack.  Returns the bytes
and the root as in the source, plus the updated instance state. -/
def compress (self : HuffmanCoding) (text : List Char) :
    Except PyErr (List Nat × Tree × HuffmanCoding) :=
  let frequency := build_frequency_dict text
  let heap := build_heap frequency
  match merge_nodes heap with
  | .error e => .error e
  | .ok root =>
    let st := build_codes self root
    match get_encoded_text st.codes text with
    | .error e => .error e
    | .ok encoded_text =>
      let padded_text := pad_encoded_text encoded_text
      match packBytes padded_text with
      | .error e => .error e
      | .ok b => .ok (b, root, st)

/-- The loop of decode_text: extend current_code by one bit; when it is
a key of reverse_mapping, emit the mapped char and reset.  Returns the
decoded text together with the final (possibly non-empty) leftover
current_code. -/
def decodeGo (rev : List Char → Option Char) :
    List Char → List Char → List Char → List Char × List Char
  | [], current_code, decoded => (decoded, current_code)
  | bit :: bits, current_code, decoded =>
    let cur := current_code ++ [bit]
    match rev cur with
    | some ch => decodeGo rev bits [] (decoded ++ [ch])
    | none => decodeGo rev bits cur decoded

/-- decode_text: run the scan and return decoded_text, silently
discarding whatever current_code is left. -/
def decode_text (self : HuffmanCoding) (encoded_text : List Char) : List Char :=
  (decodeGo self.reverse_mapping encoded_text [] []).1

/-- remove_padding: int of the first 8 chars, then the Python slice
s[8:-extra_padding].  When extra_padding = 0 the slice is s[8:0],
i.e. empty; otherwise it is s[8 : len - extra_padding] with the stop
clamped at 0. -/
def remove_padding (padded_encoded_text : List Char) : Except PyErr (List Char) :=
  match bitsToNat (padded_encoded_text.take 8) with
  | .error e => .error e
  | .ok extra_padding =>
    if extra_padding = 0 then .ok []
    else .ok ((padded_encoded_text.take
        (padded_encoded_text.length - extra_padding)).drop 8)

/-- decompress: unpack every byte to 8 bits (bin + rjust), strip the
padding, decode. -/
def decompress (self : HuffmanCoding) (compressed_data : List Nat) :
    Except PyErr (List Char) :=
  let bit_string := (compressed_data.map byteToBits).flatten
  match remove_padding bit_string with
  | .error e => .error e
  | .ok actual_text => .ok (decode_text self actual_text)

/-- The (symbol, code) pairs build_codes_helper records, in recording
order. -/
def Tree.codeList : Tree → List Char → List (Char × List Char)
  | .nil, _ => []
  | .node c _ l r, cur =>
      (match c with | some ch => [(ch, cur)] | none => []) ++
        Tree.codeList l (cur ++ ['0']) ++ Tree.codeList r (cur ++ ['1'])

/-- Fold a pair list into the two dicts in order (the effect of
build_codes_helper as a sequence of dict assignments). -/
def applyPairs (ps : List (Char × List Char)) (st : HuffmanCoding) : HuffmanCoding :=
  ps.foldl (fun st p => ⟨upd st.codes p.1 p.2, upd st.reverse_mapping p.2 p.1⟩) st

/-- Trees the source actually builds: leaves carry a char and no
children; internal nodes carry no char and two subtrees. -/
inductive WF : Tree → Prop
  | leaf (c : Char) (f : Nat) : WF (.node (some c) f .nil .nil)
  | internal (f : Nat) {l r : Tree} : WF l → WF r → WF (.node none f l r)

/-- Root-to-leaf paths, '0' on a left descent and '1' on a right
descent, as the spec describes code derivation. -/
inductive IsPath : Tree → List Char → Char → Prop
  | here (c : Char) (f : Nat) (l r : Tree) : IsPath (.node (some c) f l r) [] c
  | left {l : Tree} {p : List Char} {c : Char} (f : Nat) (r : Tree) :
      IsPath l p c → IsPath (.node none f l r) ('0' :: p) c
  | right {r : Tree} {p : List Char} {c : Char} (f : Nat) (l : Tree) :
      IsPath r p c → IsPath (.node none f l r) ('1' :: p) c

/-- The instance's dict state after a compress call (unchanged when the
call raises, since the source raises before any dict write). -/
def compressState (self : HuffmanCoding) (text : List Char) : HuffmanCoding :=
  match compress self text with
  | .ok out => out.2.2
  | .error _ => self

/-- Just the byte buffer a compress call produces. -/
def compressBytes (self : HuffmanCoding) (text : List Char) :
    Except PyErr (List Nat) :=
  match compress self text with
  | .ok out => .ok out.1
  | .error e => .error e

/-- The (symbol, code) pairs a compress call on this text writes into
the dicts (empty when the call raises before writing). -/
def writtenPairs (text : List Char) : List (Char × List Char) :=
  match merge_nodes (build_heap (build_frequency_dict text)) with
  | .ok root => Tree.codeList root []
  | .error _ => []

/-! ### Bit-string arithmetic: bin / rjust / int(·, 2) facts -/

theorem bitsVal_foldl (a : Nat) (s : List Char) :
    s.foldl (fun a c => 2 * a + (if c = '1' then 1 else 0)) a
      = a * 2 ^ s.length + bitsVal s := by
  induction s generalizing a with
  | nil => simp [bitsVal]
  | cons c s ih =>
    show List.foldl _ (2 * a + _) s = _
    rw [ih (2 * a + (if c = '1' then 1 else 0))]
    have h2 : bitsVal (c :: s) = (if c = '1' then 1 else 0) * 2 ^ s.length + bitsVal s := by
      show List.foldl _ (2 * 0 + _) s = _
      rw [ih (2 * 0 + (if c = '1' then 1 else 0))]
      ring_nf
    rw [h2]
    by_cases hc : c = '1' <;> simp [hc, List.length_cons, pow_succ] <;> ring

theorem bitsVal_cons (c : Char) (s : List Char) :
    bitsVal (c :: s) = (if c = '1' then 1 else 0) * 2 ^ s.length + bitsVal s := by
  show List.foldl _ (2 * 0 + _) s = _
  rw [bitsVal_foldl]
  ring_nf

theorem bitsVal_lt (s : List Char) : bitsVal s < 2 ^ s.length := by
  induction s with
  | nil => simp [bitsVal]
  | cons c s ih =>
    rw [bitsVal_cons]
    have : (if c = '1' then 1 else 0) ≤ 1 := by split <;> omega
    have hp : (0:Nat) < 2 ^ s.length := Nat.pos_pow_of_pos _ (by omega)
    calc (if c = '1' then 1 else 0) * 2 ^ s.length + bitsVal s
        < (if c = '1' then 1 else 0) * 2 ^ s.length + 2 ^ s.length := by omega
      _ ≤ 1 * 2 ^ s.length + 2 ^ s.length := by
          have := Nat.mul_le_mul_right (2 ^ s.length) this
          omega
      _ ≤ 2 ^ (s.length + 1) := by rw [pow_succ]; omega

theorem bitsVal_replicate_zero (k : Nat) (s : List Char) :
    bitsVal (List.replicate k '0' ++ s) = bitsVal s := by
  induction k with
  | zero => simp
  | succ k ih =>
    show bitsVal ('0' :: (List.replicate k '0' ++ s)) = _
    rw [bitsVal_cons, ih]
    have h01 : ('0' : Char) ≠ '1' := by decide
    simp [h01]

theorem bitsVal_append_singleton (s : List Char) (c : Char) :
    bitsVal (s ++ [c]) = 2 * bitsVal s + (if c = '1' then 1 else 0) := by
  show List.foldl _ 0 (s ++ [c]) = _
  rw [List.foldl_append]
  rfl

theorem natToBitsGo_spec : ∀ fuel n, n ≤ fuel →
    bitsVal (natToBitsGo fuel n) = n ∧ ∀ c ∈ natToBitsGo fuel n, isBit c := by
  intro fuel
  induction fuel with
  | zero =>
    intro n hn
    have : n = 0 := by omega
    subst this
    simp [natToBitsGo, bitsVal]
  | succ fuel ih =>
    intro n hn
    by_cases h0 : n = 0
    · subst h0; simp [natToBitsGo, bitsVal]
    · have hdiv : n / 2 ≤ fuel := by
        have h2 : n / 2 < n := Nat.div_lt_self (by omega) (by norm_num)
        omega
      obtain ⟨ihv, ihb⟩ := ih (n / 2) hdiv
      have heq : natToBitsGo (fuel + 1) n
          = natToBitsGo fuel (n / 2) ++ [if n % 2 = 1 then '1' else '0'] := by
        simp [natToBitsGo, h0]
      constructor
      · rw [heq, bitsVal_append_singleton, ihv]
        have hm := Nat.div_add_mod n 2
        by_cases hp : n % 2 = 1
        · simp [hp]; omega
        · have : n % 2 = 0 := by omega
          simp [hp, this]
          omega
      · rw [heq]
        intro c hc
        rcases List.mem_append.mp hc with h | h
        · exact ihb c h
        · simp at h
          subst h
          by_cases hp : n % 2 = 1 <;> simp [hp, isBit]

theorem bitsVal_natToBits (n : Nat) : bitsVal (natToBits n) = n := by
  by_cases h0 : n = 0
  · subst h0; simp [natToBits, bitsVal]
  · simpa [natToBits, h0] using (natToBitsGo_spec n n le_rfl).1

theorem natToBits_isBit (n : Nat) : ∀ c ∈ natToBits n, isBit c := by
  by_cases h0 : n = 0
  · subst h0; simp [natToBits, isBit]
  · simpa [natToBits, h0] using (natToBitsGo_spec n n le_rfl).2

theorem natToBitsGo_length : ∀ fuel n k, n ≤ fuel → n < 2 ^ k →
    (natToBitsGo fuel n).length ≤ k := by
  intro fuel
  induction fuel with
  | zero =>
    intro n k hn _
    have : n = 0 := by omega
    subst this
    simp [natToBitsGo]
  | succ fuel ih =>
    intro n k hn hk
    by_cases h0 : n = 0
    · subst h0; simp [natToBitsGo]
    · have hkpos : k ≠ 0 := by
        rintro rfl
        simp at hk
        omega
      obtain ⟨k', rfl⟩ : ∃ k', k = k' + 1 := ⟨k - 1, by omega⟩
      have hdiv : n / 2 ≤ fuel := by
        have h2 : n / 2 < n := Nat.div_lt_self (by omega) (by norm_num)
        omega
      have hdk : n / 2 < 2 ^ k' := by
        rw [Nat.div_lt_iff_lt_mul (by omega)]
        calc n < 2 ^ (k' + 1) := hk
          _ = 2 ^ k' * 2 := by rw [pow_succ]
      have := ih (n / 2) k' hdiv hdk
      simp [natToBitsGo, h0]
      omega

theorem natToBits_length_le (n k : Nat) (h1 : 1 ≤ k) (h : n < 2 ^ k) :
    (natToBits n).length ≤ k := by
  by_cases h0 : n = 0
  · subst h0; simpa [natToBits] using h1
  · simpa [natToBits, h0] using natToBitsGo_length n n k le_rfl h

theorem byteToBits_isBit (b : Nat) : ∀ c ∈ byteToBits b, isBit c := by
  intro c hc
  rcases List.mem_append.mp hc with h | h
  · have := List.eq_of_mem_replicate h
    subst this
    decide
  · exact natToBits_isBit b c h

theorem bitsVal_byteToBits (b : Nat) : bitsVal (byteToBits b) = b := by
  unfold byteToBits rjust8
  rw [bitsVal_replicate_zero, bitsVal_natToBits]

theorem byteToBits_length_eight (b : Nat) (hb : b < 256) :
    (byteToBits b).length = 8 := by
  have h := natToBits_length_le b 8 (by omega) (by norm_num; omega)
  simp [byteToBits, rjust8]
  omega

theorem byteToBits_length_ge (b : Nat) : 8 ≤ (byteToBits b).length := by
  simp [byteToBits, rjust8]
  omega

theorem bitsVal_inj : ∀ s t : List Char, (∀ c ∈ s, isBit c) → (∀ c ∈ t, isBit c) →
    s.length = t.length → bitsVal s = bitsVal t → s = t := by
  intro s
  induction s with
  | nil =>
    intro t _ _ hlen _
    exact (List.length_eq_zero.mp hlen.symm).symm
  | cons c s ih =>
    intro t hs ht hlen hval
    match t with
    | [] => simp at hlen
    | d :: t =>
      simp only [List.length_cons, Nat.succ.injEq] at hlen
      rw [bitsVal_cons, bitsVal_cons, hlen] at hval
      have hvs := bitsVal_lt s
      have hvt := bitsVal_lt t
      rw [hlen] at hvs
      have h01 : ¬ (('0':Char) = '1') := by decide
      have hsc := hs c (by simp)
      have htd := ht d (by simp)
      simp [isBit] at hsc htd
      have hcd : c = d ∧ bitsVal s = bitsVal t := by
        rcases hsc with rfl | rfl <;> rcases htd with rfl | rfl
        · exact ⟨rfl, by omega⟩
        · rw [if_neg h01, if_pos rfl] at hval
          exact absurd hval (by omega)
        · rw [if_pos rfl, if_neg h01] at hval
          exact absurd hval (by omega)
        · exact ⟨rfl, by omega⟩
      rw [hcd.1, ih t (fun x hx => hs x (by simp [hx])) (fun x hx => ht x (by simp [hx]))
        hlen hcd.2]

theorem byteToBits_bitsVal (s : List Char) (hlen : s.length = 8)
    (hbit : ∀ c ∈ s, isBit c) : byteToBits (bitsVal s) = s := by
  have hlt : bitsVal s < 256 := by
    have := bitsVal_lt s
    rw [hlen] at this
    norm_num at this
    exact this
  apply bitsVal_inj
  · exact byteToBits_isBit _
  · exact hbit
  · rw [byteToBits_length_eight _ hlt, hlen]
  · rw [bitsVal_byteToBits]

/-! ### Byte packing: pack then unpack is the identity on padded bit strings -/

theorem packBytesGo_ok : ∀ fuel s, s.length ≤ fuel → (∀ c ∈ s, isBit c) →
    8 ∣ s.length →
    ∃ bytes, packBytesGo fuel s = .ok bytes ∧
      (bytes.map byteToBits).flatten = s ∧ ∀ b ∈ bytes, b < 256 := by
  intro fuel
  induction fuel with
  | zero =>
    intro s hlen _ _
    have : s = [] := List.length_eq_zero.mp (by omega)
    subst this
    exact ⟨[], rfl, rfl, by simp⟩
  | succ fuel ih =>
    intro s hlen hbit hdvd
    match s with
    | [] => exact ⟨[], rfl, rfl, by simp⟩
    | c :: cs =>
      have hLc : (c :: cs).length = cs.length + 1 := by simp
      have h8 : 8 ≤ (c :: cs).length := by
        rcases hdvd with ⟨k, hk⟩
        have hknz : k ≠ 0 := by
          rintro rfl
          rw [hLc] at hk
          omega
        omega
      have htake_len : ((c :: cs).take 8).length = 8 := by
        rw [List.length_take]
        omega
      have htake_bit : ∀ x ∈ (c :: cs).take 8, isBit x :=
        fun x hx => hbit x (List.mem_of_mem_take hx)
      have htake_ne : (c :: cs).take 8 ≠ [] := by
        intro h
        rw [h] at htake_len
        simp at htake_len
      have hbn : bitsToNat ((c :: cs).take 8) = .ok (bitsVal ((c :: cs).take 8)) := by
        unfold bitsToNat
        rw [if_pos ⟨htake_ne, List.all_eq_true.mpr htake_bit⟩]
      have hdrop_len : ((c :: cs).drop 8).length ≤ fuel := by
        rw [List.length_drop]
        omega
      have hdrop_bit : ∀ x ∈ (c :: cs).drop 8, isBit x :=
        fun x hx => hbit x (List.mem_of_mem_drop hx)
      have hdrop_dvd : 8 ∣ ((c :: cs).drop 8).length := by
        rcases hdvd with ⟨k, hk⟩
        refine ⟨k - 1, ?_⟩
        rw [List.length_drop]
        omega
      obtain ⟨rest, hrest, hflat, hlt⟩ := ih ((c :: cs).drop 8) hdrop_len hdrop_bit hdrop_dvd
      refine ⟨bitsVal ((c :: cs).take 8) :: rest, ?_, ?_, ?_⟩
      · show packBytesGo (fuel + 1) (c :: cs) = _
        rw [packBytesGo, hbn, hrest]
      · simp only [List.map_cons, List.flatten_cons]
        rw [byteToBits_bitsVal _ htake_len htake_bit, hflat, List.take_append_drop]
      · intro b hb
        rcases List.mem_cons.mp hb with rfl | h
        · have := bitsVal_lt ((c :: cs).take 8)
          rw [htake_len] at this
          norm_num at this
          exact this
        · exact hlt b h

theorem packBytes_ok (s : List Char) (hbit : ∀ c ∈ s, isBit c) (hdvd : 8 ∣ s.length) :
    ∃ bytes, packBytes s = .ok bytes ∧
      (bytes.map byteToBits).flatten = s ∧ ∀ b ∈ bytes, b < 256 :=
  packBytesGo_ok s.length s le_rfl hbit hdvd

/-! ### Padding: pad_encoded_text and remove_padding are inverse -/

theorem pad_isBit (E : List Char) (h : ∀ c ∈ E, isBit c) :
    ∀ c ∈ pad_encoded_text E, isBit c := by
  intro c hc
  unfold pad_encoded_text at hc
  rcases List.mem_append.mp hc with hc | hc
  · rcases List.mem_append.mp hc with hc | hc
    · exact byteToBits_isBit _ c hc
    · exact h c hc
  · have := List.eq_of_mem_replicate hc
    subst this
    decide

theorem extra_padding_range (L : Nat) : 1 ≤ 8 - L % 8 ∧ 8 - L % 8 ≤ 8 := by
  omega

theorem pad_length (E : List Char) :
    (pad_encoded_text E).length = 8 + E.length + (8 - E.length % 8) := by
  unfold pad_encoded_text
  rw [List.length_append, List.length_append, List.length_replicate,
    byteToBits_length_eight _ (by omega)]

theorem pad_length_dvd (E : List Char) : 8 ∣ (pad_encoded_text E).length := by
  rw [pad_length]
  omega

theorem remove_padding_eval (s : List Char) (p : Nat)
    (h : bitsToNat (s.take 8) = .ok p) :
    remove_padding s
      = if p = 0 then .ok [] else .ok ((s.take (s.length - p)).drop 8) := by
  unfold remove_padding
  rw [h]

theorem decompress_eval (self : HuffmanCoding) (data : List Nat)
    (payload : List Char)
    (h : remove_padding ((data.map byteToBits).flatten) = .ok payload) :
    decompress self data = .ok (decode_text self payload) := by
  show (match remove_padding ((data.map byteToBits).flatten) with
    | Except.error e => Except.error e
    | Except.ok actual_text => Except.ok (decode_text self actual_text)) = _
  rw [h]

theorem remove_padding_pad (E : List Char) :
    remove_padding (pad_encoded_text E) = .ok E := by
  have hp : 1 ≤ 8 - E.length % 8 ∧ 8 - E.length % 8 ≤ 8 := extra_padding_range E.length
  have hA : (byteToBits (8 - E.length % 8)).length = 8 :=
    byteToBits_length_eight _ (by omega)
  have htake : (pad_encoded_text E).take 8 = byteToBits ( 8 - E.length % 8) := by
    unfold pad_encoded_text
    rw [List.append_assoc, List.take_append_of_le_length (by omega)]
    exact List.take_of_length_le (by omega)
  have hbn : bitsToNat ((pad_encoded_text E).take 8) = .ok (8 - E.length % 8) := by
    rw [htake]
    unfold bitsToNat
    rw [if_pos ⟨by intro hnil; rw [hnil] at hA; simp at hA,
      List.all_eq_true.mpr (byteToBits_isBit _)⟩, bitsVal_byteToBits]
  rw [remove_padding_eval _ _ hbn]
  rw [if_neg (by omega)]
  congr 1
  rw [pad_length]
  have h1 : 8 + E.length + (8 - E.length % 8) - (8 - E.length % 8) = 8 + E.length := by
    omega
  rw [h1]
  unfold pad_encoded_text
  rw [List.take_append_of_le_length (by rw [List.length_append, hA]),
    List.take_of_length_le (by rw [List.length_append, hA]),
    List.drop_left' hA]

/-! ### The greedy decode scan -/

theorem decodeGo_through (rev : List Char → Option Char) (code : List Char)
    (ch : Char) (hrev : rev code = some ch)
    (hnp : ∀ p, p <+: code → p ≠ code → p ≠ [] → rev p = none) :
    ∀ suf pre rest dec, code = pre ++ suf → suf ≠ [] →
      decodeGo rev (suf ++ rest) pre dec = decodeGo rev rest [] (dec ++ [ch]) := by
  intro suf
  induction suf with
  | nil => intro pre rest dec _ h; exact absurd rfl h
  | cons b bs ih =>
    intro pre rest dec hsplit _
    match bs, ih with
    | [], _ =>
      have hcur : pre ++ [b] = code := by rw [hsplit]
      show decodeGo rev (b :: rest) pre dec = _
      rw [decodeGo, hcur, hrev]
    | b2 :: bs', ih =>
      have hcur : (pre ++ [b]) ++ (b2 :: bs') = code := by
        rw [hsplit, List.append_assoc]
        rfl
      have hproper : pre ++ [b] ≠ code := by
        intro h
        have := congrArg List.length hcur
        rw [h] at this
        simp at this
      have hnone : rev (pre ++ [b]) = none :=
        hnp _ ⟨b2 :: bs', hcur⟩ hproper (by simp)
      show decodeGo rev (b :: (b2 :: bs' ++ rest)) pre dec = _
      rw [decodeGo, hnone]
      exact ih (pre ++ [b]) rest dec hcur.symm (by simp)

theorem decode_concat (rev : List Char → Option Char) (cw : Char → List Char) :
    ∀ (syms : List Char) (dec : List Char),
      (∀ c ∈ syms, rev (cw c) = some c ∧ cw c ≠ [] ∧
        (∀ p, p <+: cw c → p ≠ cw c → p ≠ [] → rev p = none)) →
      decodeGo rev ((syms.map cw).flatten) [] dec = (dec ++ syms, []) := by
  intro syms
  induction syms with
  | nil => intro dec _; simp [decodeGo]
  | cons c cs ih =>
    intro dec h
    obtain ⟨h1, h2, h3⟩ := h c (by simp)
    simp only [List.map_cons, List.flatten_cons]
    rw [decodeGo_through rev (cw c) c h1 h3 (cw c) [] _ dec rfl h2,
      ih (dec ++ [c]) (fun x hx => h x (by simp [hx]))]
    simp

/-! ### The merge loop: multiset of leaf chars, well-formedness, shape -/

theorem popMin_none {l : List Tree} : popMin l = none ↔ l = [] := by
  constructor
  · intro h
    match l with
    | [] => rfl
    | t :: ts =>
      rw [popMin] at h
      rcases hm : popMin ts with _ | m <;> rw [hm] at h
      · simp at h
      · obtain ⟨m1, m2⟩ := m
        dsimp at h
        split at h <;> simp at h
  · rintro rfl; rfl

theorem popMin_perm : ∀ {l : List Tree} {m : Tree} {rest : List Tree},
    popMin l = some (m, rest) → l.Perm (m :: rest) := by
  intro l
  induction l with
  | nil => intro m rest h; simp [popMin] at h
  | cons t ts ih =>
    intro m rest h
    rw [popMin] at h
    rcases hm : popMin ts with _ | p <;> rw [hm] at h
    · have : ts = [] := popMin_none.mp hm
      subst this
      simp at h
      obtain ⟨rfl, rfl⟩ := h
      exact List.Perm.refl _
    · obtain ⟨m', rest'⟩ := p
      have hperm := ih hm
      dsimp at h
      split at h
      · simp at h
        obtain ⟨rfl, rfl⟩ := h
        exact List.Perm.refl _
      · simp at h
        obtain ⟨rfl, rfl⟩ := h
        exact (hperm.cons t).trans (List.Perm.swap m' t rest')

theorem popMin_length {l : List Tree} {m : Tree} {rest : List Tree}
    (h : popMin l = some (m, rest)) : l.length = rest.length + 1 := by
  have := (popMin_perm h).length_eq
  simpa using this

/-- All trees in a list are well-formed. -/
def AllWF (l : List Tree) : Prop := ∀ t ∈ l, WF t

theorem mergeLoop_eq_nil {heap : List Tree} (fuel : Nat)
    (h1 : popMin heap = none) : mergeLoop (fuel + 1) heap = heap := by
  rw [mergeLoop, h1]

theorem mergeLoop_eq_one {heap : List Tree} {n1 : Tree} {rest1 : List Tree}
    (fuel : Nat) (h1 : popMin heap = some (n1, rest1))
    (h2 : popMin rest1 = none) : mergeLoop (fuel + 1) heap = heap := by
  rw [mergeLoop, h1]
  show (match popMin rest1 with
    | none => heap
    | some (n2, rest2) =>
        mergeLoop fuel (heappush rest2 (Tree.node none (n1.freq + n2.freq) n1 n2))) = _
  rw [h2]

theorem mergeLoop_eq_step {heap : List Tree} {n1 n2 : Tree}
    {rest1 rest2 : List Tree} (fuel : Nat)
    (h1 : popMin heap = some (n1, rest1))
    (h2 : popMin rest1 = some (n2, rest2)) :
    mergeLoop (fuel + 1) heap
      = mergeLoop fuel (heappush rest2 (Tree.node none (n1.freq + n2.freq) n1 n2)) := by
  rw [mergeLoop, h1]
  show (match popMin rest1 with
    | none => heap
    | some (n2, rest2) =>
        mergeLoop fuel (heappush rest2 (Tree.node none (n1.freq + n2.freq) n1 n2))) = _
  rw [h2]

theorem mergeLoop_invariant : ∀ fuel heap, AllWF heap →
    AllWF (mergeLoop fuel heap) ∧
      ((mergeLoop fuel heap).map Tree.chars).flatten.Perm
        ((heap.map Tree.chars).flatten) := by
  intro fuel
  induction fuel with
  | zero => intro heap h; exact ⟨h, List.Perm.refl _⟩
  | succ fuel ih =>
    intro heap hwf
    rcases h1 : popMin heap with _ | p1
    · rw [mergeLoop_eq_nil fuel h1]
      exact ⟨hwf, List.Perm.refl _⟩
    · obtain ⟨n1, rest1⟩ := p1
      rcases h2 : popMin rest1 with _ | p2
      · rw [mergeLoop_eq_one fuel h1 h2]
        exact ⟨hwf, List.Perm.refl _⟩
      · obtain ⟨n2, rest2⟩ := p2
        rw [mergeLoop_eq_step fuel h1 h2]
        have hperm1 := popMin_perm h1
        have hperm2 := popMin_perm h2
        have hn1 : WF n1 := hwf n1 (hperm1.mem_iff.mpr (by simp))
        have hn2 : WF n2 := hwf n2 (hperm1.mem_iff.mpr (by
          simp
          exact Or.inr (hperm2.mem_iff.mpr (by simp))))
        have hrest2 : AllWF rest2 := fun t ht =>
          hwf t (hperm1.mem_iff.mpr (by
            simp
            exact Or.inr (hperm2.mem_iff.mpr (by simp [ht]))))
        have hpush : AllWF (heappush rest2 (Tree.node none (n1.freq + n2.freq) n1 n2)) := by
          intro t ht
          rcases List.mem_append.mp ht with h | h
          · exact hrest2 t h
          · simp at h
            subst h
            exact WF.internal _ hn1 hn2
        obtain ⟨ihwf, ihperm⟩ := ih _ hpush
        refine ⟨ihwf, ihperm.trans ?_⟩
        have hchars : ((heappush rest2 (Tree.node none (n1.freq + n2.freq) n1 n2)).map
            Tree.chars).flatten
            = (rest2.map Tree.chars).flatten ++ (n1.chars ++ n2.chars) := by
          unfold heappush
          rw [List.map_append, List.flatten_append]
          simp [Tree.chars]
        rw [hchars]
        have hp1 : ((heap.map Tree.chars).flatten).Perm
            (n1.chars ++ (rest1.map Tree.chars).flatten) := by
          have := (hperm1.map Tree.chars).flatten
          simpa using this
        have hp2 : ((rest1.map Tree.chars).flatten).Perm
            (n2.chars ++ (rest2.map Tree.chars).flatten) := by
          have := (hperm2.map Tree.chars).flatten
          simpa using this
        have step1 : ((rest2.map Tree.chars).flatten ++ (n1.chars ++ n2.chars)).Perm
            (n1.chars ++ (n2.chars ++ (rest2.map Tree.chars).flatten)) := by
          have h := @List.perm_append_comm _ ((rest2.map Tree.chars).flatten)
            (n1.chars ++ n2.chars)
          rw [List.append_assoc] at h
          exact h
        exact step1.trans (((hp2.symm).append_left _).trans hp1.symm)

theorem mergeLoop_shape : ∀ fuel heap, heap.length ≤ fuel →
    (∀ t0 : Tree, heap = [t0] → mergeLoop fuel heap = [t0]) ∧
    (2 ≤ heap.length → ∃ f l r, mergeLoop fuel heap = [Tree.node none f l r]) := by
  intro fuel
  induction fuel with
  | zero =>
    intro heap hlen
    have : heap = [] := List.length_eq_zero.mp (by omega)
    subst this
    exact ⟨fun t0 h => by simp at h, fun h => by simp at h⟩
  | succ fuel ih =>
    intro heap hlen
    constructor
    · rintro t0 rfl
      have h1 : popMin [t0] = some (t0, []) := rfl
      have h2 : popMin ([] : List Tree) = none := rfl
      exact mergeLoop_eq_one fuel h1 h2
    · intro h2
      rcases hp1 : popMin heap with _ | p1
      · rw [popMin_none.mp hp1] at h2
        simp at h2
      · obtain ⟨n1, rest1⟩ := p1
        have hlen1 := popMin_length hp1
        rcases hp2 : popMin rest1 with _ | p2
        · rw [popMin_none.mp hp2] at hlen1
          simp at hlen1
          omega
        · obtain ⟨n2, rest2⟩ := p2
          have hlen2 := popMin_length hp2
          rw [mergeLoop_eq_step fuel hp1 hp2]
          have hpushlen : (heappush rest2 (Tree.node none (n1.freq + n2.freq) n1 n2)).length
              = rest2.length + 1 := by
            simp [heappush]
          by_cases hc : rest2 = []
          · subst hc
            have := (ih (heappush [] (Tree.node none (n1.freq + n2.freq) n1 n2))
              (by simp [heappush]; omega)).1
            exact ⟨_, _, _, this _ rfl⟩
          · have hr2 : 1 ≤ rest2.length := by
              rcases rest2 with _ | ⟨x, xs⟩
              · exact absurd rfl hc
              · simp
            exact (ih (heappush rest2 (Tree.node none (n1.freq + n2.freq) n1 n2))
              (by rw [hpushlen]; omega)).2 (by rw [hpushlen]; omega)

/-! ### firstOcc: the distinct symbols of the input, in first-occurrence order -/

theorem firstOcc_nodup : ∀ text : List Char, (firstOcc text).Nodup := by
  intro text
  induction text with
  | nil => exact List.nodup_nil
  | cons c cs ih =>
    rw [firstOcc]
    refine List.Nodup.cons ?_ (ih.filter _)
    intro hmem
    have := List.of_mem_filter hmem
    simp at this

theorem firstOcc_mem : ∀ (text : List Char) (x : Char),
    x ∈ firstOcc text ↔ x ∈ text := by
  intro text
  induction text with
  | nil => intro x; rfl
  | cons c cs ih =>
    intro x
    rw [firstOcc]
    constructor
    · intro h
      rcases List.mem_cons.mp h with rfl | h
      · simp
      · have h1 := List.mem_of_mem_filter h
        simp [(ih x).mp h1]
    · intro h
      rcases List.mem_cons.mp h with rfl | h
      · simp
      · by_cases hx : x = c
        · simp [hx]
        · refine List.mem_cons.mpr (Or.inr (List.mem_filter.mpr ⟨(ih x).mpr h, ?_⟩))
          simp [hx]

theorem firstOcc_ne_nil {text : List Char} (h : text ≠ []) : firstOcc text ≠ [] := by
  rcases text with _ | ⟨c, cs⟩
  · exact absurd rfl h
  · rw [firstOcc]
    simp

theorem flatten_map_singletons : ∀ l : List Char, (l.map (fun c => [c])).flatten = l := by
  intro l
  induction l with
  | nil => rfl
  | cons c cs ih => simp [ih]

/-! ### merge_nodes on the heap built from the frequency dict -/

theorem merge_nodes_spec (text : List Char) (h : text ≠ []) :
    ∃ root, merge_nodes (build_heap (build_frequency_dict text)) = .ok root ∧
      WF root ∧ root.chars.Perm (firstOcc text) ∧
      (2 ≤ (firstOcc text).length → ∃ f l r, root = Tree.node none f l r) := by
  set heap0 := build_heap (build_frequency_dict text) with hheap
  have hwf0 : AllWF heap0 := by
    intro t ht
    simp [hheap, build_heap, heapify, build_frequency_dict] at ht
    obtain ⟨c, hc, rfl⟩ := ht
    exact WF.leaf _ _
  have hchars0 : (heap0.map Tree.chars).flatten = firstOcc text := by
    rw [hheap]
    unfold build_heap heapify build_frequency_dict
    rw [List.map_map, List.map_map]
    have : ((Tree.chars ∘ fun p => Tree.node (some p.1) p.2 .nil .nil)
        ∘ fun c => (c, text.count c)) = fun c => [c] := by
      funext c
      simp [Tree.chars]
    rw [this, flatten_map_singletons]
  have hlen0 : heap0.length = (firstOcc text).length := by
    rw [hheap]
    unfold build_heap heapify build_frequency_dict
    simp
  have hfo : firstOcc text ≠ [] := firstOcc_ne_nil h
  have hlenpos : 1 ≤ heap0.length := by
    rw [hlen0]
    rcases hfe : firstOcc text with _ | ⟨x, xs⟩
    · exact absurd hfe hfo
    · simp
  obtain ⟨hwfL, hpermL⟩ := mergeLoop_invariant heap0.length heap0 hwf0
  obtain ⟨hone, htwo⟩ := mergeLoop_shape heap0.length heap0 le_rfl
  by_cases hk : 2 ≤ heap0.length
  · obtain ⟨f, l, r, heq⟩ := htwo hk
    refine ⟨Tree.node none f l r, ?_, ?_, ?_, fun _ => ⟨f, l, r, rfl⟩⟩
    · unfold merge_nodes
      rw [heq]
      rfl
    · exact hwfL _ (by rw [heq]; simp)
    · have := hpermL
      rw [heq, hchars0] at this
      simpa [Tree.chars] using this
  · have hone' : heap0.length = 1 := by omega
    obtain ⟨t0, ht0⟩ := List.length_eq_one.mp hone'
    have heq := hone t0 ht0
    refine ⟨t0, ?_, ?_, ?_, ?_⟩
    · unfold merge_nodes
      rw [heq]
      rfl
    · exact hwfL _ (by rw [heq]; simp)
    · have := hpermL
      rw [heq, hchars0] at this
      simpa using this
    · intro hk2
      rw [hlen0] at hone'
      omega

/-! ### build_codes_helper as a sequence of dict assignments -/

theorem applyPairs_append (ps qs : List (Char × List Char)) (st : HuffmanCoding) :
    applyPairs (ps ++ qs) st = applyPairs qs (applyPairs ps st) := by
  unfold applyPairs
  rw [List.foldl_append]

theorem build_codes_helper_eq : ∀ (t : Tree) (cur : List Char) (st : HuffmanCoding),
    build_codes_helper t cur st = applyPairs (Tree.codeList t cur) st := by
  intro t
  induction t with
  | nil => intro cur st; rfl
  | node c f l r ihl ihr =>
    intro cur st
    rcases c with _ | ch
    · show build_codes_helper r (cur ++ ['1']) (build_codes_helper l (cur ++ ['0']) st)
        = applyPairs (([] ++ Tree.codeList l (cur ++ ['0']))
            ++ Tree.codeList r (cur ++ ['1'])) st
      rw [ihl, ihr, List.nil_append, applyPairs_append]
    · show build_codes_helper r (cur ++ ['1']) (build_codes_helper l (cur ++ ['0'])
          ⟨upd st.codes ch cur, upd st.reverse_mapping cur ch⟩)
        = applyPairs (([(ch, cur)] ++ Tree.codeList l (cur ++ ['0']))
            ++ Tree.codeList r (cur ++ ['1'])) st
      rw [ihl, ihr, applyPairs_append, applyPairs_append]
      rfl

theorem applyPairs_codes_not_mem : ∀ (ps : List (Char × List Char))
    (st : HuffmanCoding) (c : Char), c ∉ ps.map Prod.fst →
    (applyPairs ps st).codes c = st.codes c := by
  intro ps
  induction ps with
  | nil => intro st c _; rfl
  | cons p ps ih =>
    intro st c hc
    simp at hc
    show (applyPairs ps _).codes c = _
    rw [ih _ c (by simp [hc.2])]
    show upd st.codes p.1 p.2 c = _
    unfold upd
    rw [if_neg hc.1]

theorem applyPairs_rev_not_mem : ∀ (ps : List (Char × List Char))
    (st : HuffmanCoding) (v : List Char), v ∉ ps.map Prod.snd →
    (applyPairs ps st).reverse_mapping v = st.reverse_mapping v := by
  intro ps
  induction ps with
  | nil => intro st v _; rfl
  | cons p ps ih =>
    intro st v hv
    simp at hv
    show (applyPairs ps _).reverse_mapping v = _
    rw [ih _ v (by simp [hv.2])]
    show upd st.reverse_mapping p.2 p.1 v = _
    unfold upd
    rw [if_neg hv.1]

theorem applyPairs_codes_mem : ∀ (ps : List (Char × List Char))
    (st : HuffmanCoding) (c : Char) (v : List Char),
    (ps.map Prod.fst).Nodup → (c, v) ∈ ps →
    (applyPairs ps st).codes c = some v := by
  intro ps
  induction ps with
  | nil => intro st c v _ h; simp at h
  | cons p ps ih =>
    intro st c v hnd hmem
    rw [List.map_cons, List.nodup_cons] at hnd
    rcases List.mem_cons.mp hmem with rfl | hmem'
    · show (applyPairs ps _).codes c = _
      rw [applyPairs_codes_not_mem ps _ c hnd.1]
      show upd st.codes c v c = _
      unfold upd
      rw [if_pos rfl]
    · exact ih _ c v hnd.2 hmem'

theorem applyPairs_rev_mem : ∀ (ps : List (Char × List Char))
    (st : HuffmanCoding) (c : Char) (v : List Char),
    (ps.map Prod.snd).Nodup → (c, v) ∈ ps →
    (applyPairs ps st).reverse_mapping v = some c := by
  intro ps
  induction ps with
  | nil => intro st c v _ h; simp at h
  | cons p ps ih =>
    intro st c v hnd hmem
    rw [List.map_cons, List.nodup_cons] at hnd
    rcases List.mem_cons.mp hmem with rfl | hmem'
    · show (applyPairs ps _).reverse_mapping v = _
      rw [applyPairs_rev_not_mem ps _ v hnd.1]
      show upd st.reverse_mapping v c v = _
      unfold upd
      rw [if_pos rfl]
    · exact ih _ c v hnd.2 hmem'

theorem applyPairs_codes_some : ∀ (ps : List (Char × List Char))
    (st : HuffmanCoding) (c : Char) (v : List Char),
    (applyPairs ps st).codes c = some v → (c, v) ∈ ps ∨ st.codes c = some v := by
  intro ps
  induction ps with
  | nil => intro st c v h; exact Or.inr h
  | cons p ps ih =>
    intro st c v h
    rcases ih _ c v h with hmem | hupd
    · exact Or.inl (by simp [hmem])
    · show _ ∨ st.codes c = some v
      revert hupd
      show upd st.codes p.1 p.2 c = some v → _
      unfold upd
      split
      · rename_i hc
        intro hv
        subst hc
        simp only [Option.some.injEq] at hv
        subst hv
        left
        exact List.mem_cons.mpr (Or.inl rfl)
      · exact fun hv => Or.inr hv

theorem applyPairs_rev_some : ∀ (ps : List (Char × List Char))
    (st : HuffmanCoding) (c : Char) (v : List Char),
    (applyPairs ps st).reverse_mapping v = some c →
    (c, v) ∈ ps ∨ st.reverse_mapping v = some c := by
  intro ps
  induction ps with
  | nil => intro st c v h; exact Or.inr h
  | cons p ps ih =>
    intro st c v h
    rcases ih _ c v h with hmem | hupd
    · exact Or.inl (by simp [hmem])
    · show _ ∨ st.reverse_mapping v = some c
      revert hupd
      show upd st.reverse_mapping p.2 p.1 v = some c → _
      unfold upd
      split
      · rename_i hv
        intro hc
        subst hv
        simp only [Option.some.injEq] at hc
        subst hc
        left
        exact List.mem_cons.mpr (Or.inl rfl)
      · exact fun hv => Or.inr hv

/-! ### Structure of the recorded (symbol, code) pairs -/

theorem codeList_node_some (ch : Char) (f : Nat) (l r : Tree) (cur : List Char) :
    Tree.codeList (Tree.node (some ch) f l r) cur
      = (ch, cur) :: (Tree.codeList l (cur ++ ['0']) ++ Tree.codeList r (cur ++ ['1'])) := by
  show ([(ch, cur)] ++ _) ++ _ = _
  simp

theorem codeList_node_none (f : Nat) (l r : Tree) (cur : List Char) :
    Tree.codeList (Tree.node none f l r) cur
      = Tree.codeList l (cur ++ ['0']) ++ Tree.codeList r (cur ++ ['1']) := by
  show ([] ++ _) ++ _ = _
  rw [List.nil_append]

theorem codeList_map_fst : ∀ (t : Tree) (cur : List Char),
    (Tree.codeList t cur).map Prod.fst = t.chars := by
  intro t
  induction t with
  | nil => intro cur; rfl
  | node c f l r ihl ihr =>
    intro cur
    rcases c with _ | ch
    · rw [codeList_node_none]
      show _ = ([] ++ l.chars) ++ r.chars
      simp [ihl, ihr]
    · rw [codeList_node_some]
      show _ = ([ch] ++ l.chars) ++ r.chars
      simp [ihl, ihr]

theorem codeList_cur_pre : ∀ (t : Tree) (cur : List Char) (pr : Char × List Char),
    pr ∈ Tree.codeList t cur → cur <+: pr.2 := by
  intro t
  induction t with
  | nil => intro cur pr h; simp [Tree.codeList] at h
  | node c f l r ihl ihr =>
    intro cur pr h
    rcases c with _ | ch
    · rw [codeList_node_none] at h
      rcases List.mem_append.mp h with h1 | h1
      · exact (cur.prefix_append ['0']).trans (ihl _ pr h1)
      · exact (cur.prefix_append ['1']).trans (ihr _ pr h1)
    · rw [codeList_node_some] at h
      rcases List.mem_cons.mp h with h1 | h1
      · subst h1
        exact List.prefix_refl cur
      · rcases List.mem_append.mp h1 with h2 | h2
        · exact (cur.prefix_append ['0']).trans (ihl _ pr h2)
        · exact (cur.prefix_append ['1']).trans (ihr _ pr h2)

theorem cross_incomparable {cur a b : List Char} {x y : Char} (hxy : x ≠ y)
    (ha : cur ++ [x] <+: a) (hb : cur ++ [y] <+: b) : ¬ a <+: b := by
  intro hab
  obtain ⟨ta, rfl⟩ := ha
  obtain ⟨tb, rfl⟩ := hb
  rw [List.append_assoc, List.append_assoc] at hab
  have h := (List.prefix_append_right_inj cur).mp hab
  rw [List.singleton_append, List.singleton_append, List.cons_prefix_cons] at h
  exact absurd h.1 hxy

theorem codeList_pairwise {t : Tree} (hwf : WF t) : ∀ cur : List Char,
    ((Tree.codeList t cur).map Prod.snd).Pairwise
      (fun a b => ¬ (a <+: b) ∧ ¬ (b <+: a)) := by
  induction hwf with
  | leaf c f =>
    intro cur
    rw [codeList_node_some]
    simp [Tree.codeList]
  | internal f hl hr ihl ihr =>
    intro cur
    rw [codeList_node_none, List.map_append, List.pairwise_append]
    refine ⟨ihl _, ihr _, ?_⟩
    intro a ha b hb
    obtain ⟨pa, hpa, rfl⟩ := List.mem_map.mp ha
    obtain ⟨pb, hpb, rfl⟩ := List.mem_map.mp hb
    have h0 := codeList_cur_pre _ _ _ hpa
    have h1 := codeList_cur_pre _ _ _ hpb
    exact ⟨cross_incomparable (by decide) h0 h1,
      cross_incomparable (by decide) h1 h0⟩

theorem codeList_snd_nodup {t : Tree} (hwf : WF t) (cur : List Char) :
    ((Tree.codeList t cur).map Prod.snd).Nodup := by
  refine (codeList_pairwise hwf cur).imp ?_
  intro a b h
  intro hab
  exact h.1 (hab ▸ List.prefix_refl a)

theorem codeList_nonempty_internal {f : Nat} {l r : Tree} :
    ∀ pr ∈ Tree.codeList (Tree.node none f l r) [], pr.2 ≠ [] := by
  intro pr h
  rw [codeList_node_none] at h
  have hpre : ∃ z : Char, [z] <+: pr.2 := by
    rcases List.mem_append.mp h with h1 | h1
    · exact ⟨'0', codeList_cur_pre _ _ _ h1⟩
    · exact ⟨'1', codeList_cur_pre _ _ _ h1⟩
  obtain ⟨z, hz⟩ := hpre
  intro hnil
  rw [hnil] at hz
  have := hz.length_le
  simp at this

theorem codeList_isBit : ∀ (t : Tree) (cur : List Char),
    (∀ c ∈ cur, isBit c) → ∀ pr ∈ Tree.codeList t cur, ∀ c ∈ pr.2, isBit c := by
  intro t
  induction t with
  | nil => intro cur _ pr h; simp [Tree.codeList] at h
  | node c f l r ihl ihr =>
    intro cur hcur pr h
    have hcur0 : ∀ x ∈ cur ++ ['0'], isBit x := by
      intro x hx
      rcases List.mem_append.mp hx with h' | h'
      · exact hcur x h'
      · simp at h'
        subst h'
        decide
    have hcur1 : ∀ x ∈ cur ++ ['1'], isBit x := by
      intro x hx
      rcases List.mem_append.mp hx with h' | h'
      · exact hcur x h'
      · simp at h'
        subst h'
        decide
    rcases c with _ | ch
    · rw [codeList_node_none] at h
      rcases List.mem_append.mp h with h1 | h1
      · exact ihl _ hcur0 pr h1
      · exact ihr _ hcur1 pr h1
    · rw [codeList_node_some] at h
      rcases List.mem_cons.mp h with h1 | h1
      · subst h1
        exact hcur
      · rcases List.mem_append.mp h1 with h2 | h2
        · exact ihl _ hcur0 pr h2
        · exact ihr _ hcur1 pr h2

theorem codeList_isPath {t : Tree} (hwf : WF t) : ∀ (cur : List Char)
    (c : Char) (v : List Char), (c, v) ∈ Tree.codeList t cur →
    ∃ suffix, v = cur ++ suffix ∧ IsPath t suffix c := by
  induction hwf with
  | leaf c0 f =>
    intro cur c v h
    rw [codeList_node_some] at h
    simp [Tree.codeList] at h
    obtain ⟨rfl, rfl⟩ := h
    exact ⟨[], by simp, IsPath.here _ f .nil .nil⟩
  | internal f hl hr ihl ihr =>
    rename_i l r
    intro cur c v h
    rw [codeList_node_none] at h
    rcases List.mem_append.mp h with h1 | h1
    · obtain ⟨s, hs, hpath⟩ := ihl _ c v h1
      exact ⟨'0' :: s, by rw [hs, List.append_assoc]; rfl, IsPath.left f r hpath⟩
    · obtain ⟨s, hs, hpath⟩ := ihr _ c v h1
      exact ⟨'1' :: s, by rw [hs, List.append_assoc]; rfl, IsPath.right f l hpath⟩

/-! ### get_encoded_text on a fully populated code dict -/

theorem get_encoded_text_ok (codes : Char → Option (List Char))
    (f : Char → List Char) : ∀ text : List Char,
    (∀ c ∈ text, codes c = some (f c)) →
    get_encoded_text codes text = .ok ((text.map f).flatten) := by
  intro text
  induction text with
  | nil => intro _; rfl
  | cons c cs ih =>
    intro h
    show (match codes c with
      | none => Except.error PyErr.keyError
      | some code =>
        match get_encoded_text codes cs with
        | .error e => Except.error e
        | .ok rest => Except.ok (code ++ rest)) = _
    rw [h c (by simp), ih (fun x hx => h x (by simp [hx]))]
    simp

/-! ### The compress pipeline -/

theorem compress_eval (self : HuffmanCoding) (text : List Char) (root : Tree)
    (encoded : List Char) (bytes : List Nat)
    (h1 : merge_nodes (build_heap (build_frequency_dict text)) = .ok root)
    (h2 : get_encoded_text (build_codes self root).codes text = .ok encoded)
    (h3 : packBytes (pad_encoded_text encoded) = .ok bytes) :
    compress self text = .ok (bytes, root, build_codes self root) := by
  show (match merge_nodes (build_heap (build_frequency_dict text)) with
    | .error e => Except.error e
    | .ok root =>
      match get_encoded_text (build_codes self root).codes text with
      | .error e => Except.error e
      | .ok encoded_text =>
        match packBytes (pad_encoded_text encoded_text) with
        | .error e => Except.error e
        | .ok b => Except.ok (b, root, build_codes self root)) = _
  rw [h1]
  show (match get_encoded_text (build_codes self root).codes text with
    | .error e => Except.error e
    | .ok encoded_text =>
      match packBytes (pad_encoded_text encoded_text) with
      | .error e => Except.error e
      | .ok b => Except.ok (b, root, build_codes self root)) = _
  rw [h2]
  show (match packBytes (pad_encoded_text encoded) with
    | .error e => Except.error e
    | .ok b => Except.ok (b, root, build_codes self root)) = _
  rw [h3]

/-- Everything a successful compress call produces, in one package. -/
theorem compress_ok (self : HuffmanCoding) (text : List Char) (h : text ≠ []) :
    ∃ root encoded bytes,
      merge_nodes (build_heap (build_frequency_dict text)) = .ok root ∧
      WF root ∧ root.chars.Perm (firstOcc text) ∧
      (2 ≤ (firstOcc text).length → ∃ f l r, root = Tree.node none f l r) ∧
      get_encoded_text (build_codes self root).codes text = .ok encoded ∧
      encoded = (text.map
        (fun c => ((build_codes self root).codes c).getD [])).flatten ∧
      (∀ c ∈ encoded, isBit c) ∧
      packBytes (pad_encoded_text encoded) = .ok bytes ∧
      (bytes.map byteToBits).flatten = pad_encoded_text encoded ∧
      (∀ b ∈ bytes, b < 256) ∧
      (∀ c ∈ text, ∃ v, (c, v) ∈ Tree.codeList root []
        ∧ (build_codes self root).codes c = some v) ∧
      compress self text = .ok (bytes, root, build_codes self root) := by
  obtain ⟨root, hmerge, hwf, hperm, hint⟩ := merge_nodes_spec text h
  have hchars_nodup : root.chars.Nodup := hperm.symm.nodup (firstOcc_nodup text)
  have hfst : (Tree.codeList root []).map Prod.fst = root.chars :=
    codeList_map_fst root []
  have hfst_nodup : ((Tree.codeList root []).map Prod.fst).Nodup := by
    rw [hfst]
    exact hchars_nodup
  have hbc : build_codes self root = applyPairs (Tree.codeList root []) self :=
    build_codes_helper_eq root [] self
  have hlookup : ∀ c ∈ text, ∃ v, (c, v) ∈ Tree.codeList root []
      ∧ (build_codes self root).codes c = some v := by
    intro c hc
    have hc1 : c ∈ root.chars := hperm.mem_iff.mpr ((firstOcc_mem text c).mpr hc)
    rw [← hfst] at hc1
    obtain ⟨pr, hpr, hpr1⟩ := List.mem_map.mp hc1
    refine ⟨pr.2, ?_, ?_⟩
    · rw [← hpr1]
      exact hpr
    · rw [hbc]
      refine applyPairs_codes_mem _ _ _ _ hfst_nodup ?_
      rw [← hpr1]
      exact hpr
  have henc : ∀ c ∈ text, (build_codes self root).codes c
      = some (((build_codes self root).codes c).getD []) := by
    intro c hc
    obtain ⟨v, _, hv⟩ := hlookup c hc
    rw [hv]
    rfl
  have hget := get_encoded_text_ok (build_codes self root).codes
    (fun c => ((build_codes self root).codes c).getD []) text henc
  set encoded := (text.map
    (fun c => ((build_codes self root).codes c).getD [])).flatten with hencdef
  have hbits : ∀ c ∈ encoded, isBit c := by
    intro c hc
    rw [hencdef] at hc
    obtain ⟨seg, hseg, hcseg⟩ := List.mem_flatten.mp hc
    obtain ⟨x, hx, rfl⟩ := List.mem_map.mp hseg
    obtain ⟨v, hvmem, hv⟩ := hlookup x hx
    rw [hv] at hcseg
    exact codeList_isBit root [] (by simp) (x, v) hvmem c hcseg
  obtain ⟨bytes, hpack, hflat, hlt⟩ := packBytes_ok (pad_encoded_text encoded)
    (pad_isBit _ hbits) (pad_length_dvd _)
  exact ⟨root, encoded, bytes, hmerge, hwf, hperm, hint, hget, rfl, hbits,
    hpack, hflat, hlt, hlookup,
    compress_eval self text root encoded bytes hmerge hget hpack⟩

/-! ### The reverse mapping of a fresh instance after build_codes -/

theorem fresh_rev_iff (root : Tree) (hwf : WF root) (v : List Char) (c : Char) :
    (build_codes HuffmanCoding.init root).reverse_mapping v = some c
      ↔ (c, v) ∈ Tree.codeList root [] := by
  unfold build_codes
  rw [build_codes_helper_eq]
  constructor
  · intro h
    rcases applyPairs_rev_some _ _ _ _ h with hmem | hinit
    · exact hmem
    · exact absurd hinit (by simp [HuffmanCoding.init])
  · intro hmem
    exact applyPairs_rev_mem _ _ _ _ (codeList_snd_nodup hwf []) hmem

/-- Greedy decode recovers the symbols from the concatenation of their
codes, with empty leftover, for the tables of a fresh instance and an
internal root. -/
theorem decode_pairs (root : Tree) (hwf : WF root)
    (hroot : ∃ f l r, root = Tree.node none f l r) (text : List Char)
    (hlk : ∀ c ∈ text, ∃ v, (c, v) ∈ Tree.codeList root []
        ∧ (build_codes HuffmanCoding.init root).codes c = some v) :
    decodeGo (build_codes HuffmanCoding.init root).reverse_mapping
      ((text.map
        (fun c => ((build_codes HuffmanCoding.init root).codes c).getD [])).flatten)
      [] [] = (text, []) := by
  have hpw := codeList_pairwise hwf ([] : List Char)
  have hsym : Symmetric (fun a b : List Char => ¬ (a <+: b) ∧ ¬ (b <+: a)) :=
    fun a b hab => ⟨hab.2, hab.1⟩
  have h := decode_concat (build_codes HuffmanCoding.init root).reverse_mapping
    (fun c => ((build_codes HuffmanCoding.init root).codes c).getD []) text [] ?_
  · simpa using h
  · intro c hc
    obtain ⟨v, hvmem, hv⟩ := hlk c hc
    have hcw : ((build_codes HuffmanCoding.init root).codes c).getD [] = v := by
      rw [hv]
      rfl
    dsimp only
    rw [hcw]
    refine ⟨(fresh_rev_iff root hwf v c).mpr hvmem, ?_, ?_⟩
    · obtain ⟨f, l, r, rfl⟩ := hroot
      exact codeList_nonempty_internal (c, v) hvmem
    · intro p hp hpne hpnil
      rcases hrevp : (build_codes HuffmanCoding.init root).reverse_mapping p
        with _ | d
      · rfl
      · exfalso
        have hpmem := (fresh_rev_iff root hwf p d).mp hrevp
        have hpsnd : p ∈ (Tree.codeList root []).map Prod.snd :=
          List.mem_map.mpr ⟨(d, p), hpmem, rfl⟩
        have hvsnd : v ∈ (Tree.codeList root []).map Prod.snd :=
          List.mem_map.mpr ⟨(c, v), hvmem, rfl⟩
        exact (hpw.forall hsym hpsnd hvsnd hpne).1 hp

/-! ### Small helpers for the claim theorems -/

theorem pad_take_eight (E : List Char) :
    (pad_encoded_text E).take 8 = byteToBits (8 - E.length % 8) := by
  have hA : (byteToBits (8 - E.length % 8)).length = 8 :=
    byteToBits_length_eight _ (by omega)
  unfold pad_encoded_text
  rw [List.append_assoc, List.take_append_of_le_length (by omega)]
  exact List.take_of_length_le (by omega)

theorem WF_chars_pos {t : Tree} (hwf : WF t) : 1 ≤ t.chars.length := by
  induction hwf with
  | leaf c f => simp [Tree.chars]
  | internal f hl hr ihl ihr =>
    show 1 ≤ (([] ++ _) ++ _).length
    rw [List.nil_append, List.length_append]
    omega

theorem remove_padding_data_ok (data : List Nat) (h : data ≠ []) :
    ∃ payload, remove_padding ((data.map byteToBits).flatten) = .ok payload := by
  match data with
  | b :: rest =>
    have hlen : 8 ≤ (byteToBits b).length := byteToBits_length_ge b
    have htake : (((b :: rest).map byteToBits).flatten).take 8
        = (byteToBits b).take 8 := by
      show ((byteToBits b) ++ ((rest.map byteToBits).flatten)).take 8 = _
      rw [List.take_append_of_le_length hlen]
    have ht_len : ((byteToBits b).take 8).length = 8 := by
      rw [List.length_take]
      omega
    have ht_ne : (byteToBits b).take 8 ≠ [] := by
      intro hh
      rw [hh] at ht_len
      simp at ht_len
    have ht_bits : ∀ c ∈ (byteToBits b).take 8, isBit c :=
      fun c hc => byteToBits_isBit b c (List.mem_of_mem_take hc)
    have hbn : bitsToNat ((((b :: rest).map byteToBits).flatten).take 8)
        = .ok (bitsVal ((byteToBits b).take 8)) := by
      rw [htake]
      unfold bitsToNat
      rw [if_pos ⟨ht_ne, List.all_eq_true.mpr ht_bits⟩]
    by_cases h0 : bitsVal ((byteToBits b).take 8) = 0
    · exact ⟨[], by rw [remove_padding_eval _ _ hbn, if_pos h0]⟩
    · exact ⟨_, by rw [remove_padding_eval _ _ hbn, if_neg h0]⟩

/-! ### Claim theorems -/

/-- C1 (amended): for every input with at least two distinct symbols,
decompress of compress on a fresh instance, with the tables that
compress call produced, returns exactly the input. -/
theorem roundtrip_two_distinct (text : List Char)
    (hk : 2 ≤ (firstOcc text).length) :
    ∃ bytes root st, compress HuffmanCoding.init text = .ok (bytes, root, st) ∧
      decompress st bytes = .ok text := by
  have hne : text ≠ [] := by
    rintro rfl
    simp [firstOcc] at hk
  obtain ⟨root, encoded, bytes, hmerge, hwf, hperm, hint, hget, hencdef, hbits,
    hpack, hflat, hlt, hlk, hcomp⟩ := compress_ok HuffmanCoding.init text hne
  refine ⟨bytes, root, build_codes HuffmanCoding.init root, hcomp, ?_⟩
  have hrp : remove_padding ((bytes.map byteToBits).flatten) = .ok encoded := by
    rw [hflat]
    exact remove_padding_pad encoded
  rw [decompress_eval _ _ _ hrp]
  unfold decode_text
  rw [hencdef, decode_pairs root hwf (hint hk) text hlk]

/-- C1 counterexample: a single-symbol input does not round-trip; the
buffer for "a" decompresses to the empty string. -/
theorem roundtrip_single_symbol_cex :
    ∃ bytes root st, compress HuffmanCoding.init ['a'] = .ok (bytes, root, st) ∧
      decompress st bytes = .ok [] ∧ decompress st bytes ≠ .ok ['a'] := by
  refine ⟨[8, 0], Tree.node (some 'a') 1 .nil .nil,
    ⟨upd (fun _ => none) 'a' [], upd (fun _ => none) [] 'a'⟩, rfl, by decide, by decide⟩

/-- C2: the code does not wrap a single leaf in an internal node; on the
input "aaaa" the symbol gets the empty code and the buffer decompresses
to the empty string, not "aaaa". -/
theorem single_symbol_empty_code_eval :
    ∃ root st, compress HuffmanCoding.init ['a', 'a', 'a', 'a']
        = .ok ([8, 0], root, st) ∧
      root = Tree.node (some 'a') 4 .nil .nil ∧
      st.codes 'a' = some [] ∧
      decompress st [8, 0] = .ok [] := by
  refine ⟨Tree.node (some 'a') 4 .nil .nil,
    ⟨upd (fun _ => none) 'a' [], upd (fun _ => none) [] 'a'⟩,
    rfl, rfl, by decide, by decide⟩

/-- C5 (amended): compress on the empty input fails, but with the
IndexError from heap[0] on the empty merged heap, for any instance
state. -/
theorem compress_empty_index_error (self : HuffmanCoding) :
    compress self [] = .error .indexError := rfl

/-- C5 counterexample: the failure on empty input is not the spec's
EmptyInputError. -/
theorem empty_input_error_cex :
    compress HuffmanCoding.init [] ≠ .error .emptyInputError := by
  intro hc
  have h : compress HuffmanCoding.init [] = .error .indexError := rfl
  rw [h] at hc
  have h2 : PyErr.indexError = PyErr.emptyInputError := Except.error.inj hc
  exact absurd h2 (by decide)

/-- C9: a buffer whose first byte is 0 decompresses to the empty string
whatever the rest of the buffer and the tables are, because the Python
slice [8:-0] is empty. -/
theorem decompress_zero_header (self : HuffmanCoding) (rest : List Nat) :
    decompress self (0 :: rest) = .ok [] := by
  have hA : (byteToBits 0).length = 8 := byteToBits_length_eight 0 (by norm_num)
  have htake : (((0 :: rest).map byteToBits).flatten).take 8 = byteToBits 0 := by
    show ((byteToBits 0) ++ ((rest.map byteToBits).flatten)).take 8 = _
    rw [List.take_append_of_le_length (by omega)]
    exact List.take_of_length_le (by omega)
  have hbn : bitsToNat ((((0 :: rest).map byteToBits).flatten).take 8)
      = .ok 0 := by
    rw [htake]
    unfold bitsToNat
    rw [if_pos ⟨by intro hh; rw [hh] at hA; simp at hA,
      List.all_eq_true.mpr (byteToBits_isBit 0)⟩, bitsVal_byteToBits]
  have hrp : remove_padding (((0 :: rest).map byteToBits).flatten) = .ok [] := by
    rw [remove_padding_eval _ _ hbn, if_pos rfl]
  rw [decompress_eval _ _ _ hrp]
  rfl

/-- C8: decompress is total on every non-empty byte buffer, for every
table state: it returns some string and raises nothing. -/
theorem decompress_total (self : HuffmanCoding) (data : List Nat)
    (h : data ≠ []) : ∃ s, decompress self data = .ok s := by
  obtain ⟨payload, hp⟩ := remove_padding_data_ok data h
  exact ⟨decode_text self payload, decompress_eval self data payload hp⟩

/-- C3 (amended): on every non-empty buffer decompress returns, without
raising, exactly the symbols the scan matched; an unmatched leftover
candidate is silently discarded, and out-of-range padding counts are
absorbed by the slice. -/
theorem decode_silently_drops_leftover (self : HuffmanCoding)
    (data : List Nat) (h : data ≠ []) :
    ∃ payload dec leftover,
      remove_padding ((data.map byteToBits).flatten) = .ok payload ∧
      decodeGo self.reverse_mapping payload [] [] = (dec, leftover) ∧
      decompress self data = .ok dec := by
  obtain ⟨payload, hp⟩ := remove_padding_data_ok data h
  exact ⟨payload, (decodeGo self.reverse_mapping payload [] []).1,
    (decodeGo self.reverse_mapping payload [] []).2, hp, rfl,
    decompress_eval self data payload hp⟩

/-- C3 counterexample: with inverse table mapping only "0" to 'a', the
buffer [6, 64] (payload "01") leaves the unmatched candidate "1" and
still returns "a" with no error, and the buffer [9, 0] declares 9 > 8
padding bits and still returns the empty string with no error. -/
theorem corrupt_stream_silent_cex :
    decompress ⟨fun _ => none, upd (fun _ => none) ['0'] 'a'⟩ [6, 64]
        = .ok ['a'] ∧
      decompress ⟨fun _ => none, upd (fun _ => none) ['0'] 'a'⟩ [9, 0]
        = .ok [] :=
  ⟨by decide, by decide⟩

/-- C4: for every non-empty input, the header byte equals
8 - (len(encoded) mod 8), lies in [1, 8], and stripping the header and
that many trailing bits from the unpacked stream leaves exactly the
encoded payload, which the scan consumes with empty leftover. -/
theorem padding_invariant (text : List Char) (h : text ≠ []) :
    ∃ bytes root st encoded p,
      compress HuffmanCoding.init text = .ok (bytes, root, st) ∧
      get_encoded_text st.codes text = .ok encoded ∧
      p = 8 - encoded.length % 8 ∧ 1 ≤ p ∧ p ≤ 8 ∧
      bytes.head? = some p ∧
      remove_padding ((bytes.map byteToBits).flatten) = .ok encoded ∧
      (decodeGo st.reverse_mapping encoded [] []).2 = [] := by
  obtain ⟨root, encoded, bytes, hmerge, hwf, hperm, hint, hget, hencdef, hbits,
    hpack, hflat, hlt, hlk, hcomp⟩ := compress_ok HuffmanCoding.init text h
  have hrp : remove_padding ((bytes.map byteToBits).flatten) = .ok encoded := by
    rw [hflat]
    exact remove_padding_pad encoded
  have hpadlen : 1 ≤ 8 - encoded.length % 8 ∧ 8 - encoded.length % 8 ≤ 8 :=
    extra_padding_range encoded.length
  have hbytes_ne : bytes ≠ [] := by
    intro hnil
    have hl := congrArg List.length hflat
    rw [hnil, pad_length, List.map_nil, List.flatten_nil, List.length_nil] at hl
    omega
  have hhead : bytes.head? = some (8 - encoded.length % 8) := by
    match bytes, hbytes_ne with
    | b :: brest, _ =>
      have hbb : byteToBits b ++ ((brest.map byteToBits).flatten)
          = pad_encoded_text encoded := hflat
      have hblen : (byteToBits b).length = 8 :=
        byteToBits_length_eight b (hlt b (by simp))
      have htk : byteToBits b = (pad_encoded_text encoded).take 8 := by
        rw [← hbb, List.take_append_of_le_length (by omega)]
        exact (List.take_of_length_le (by omega)).symm
      have hb : b = 8 - encoded.length % 8 := by
        have h1 : bitsVal (byteToBits b)
            = bitsVal (byteToBits (8 - encoded.length % 8)) := by
          rw [htk, pad_take_eight]
        rw [bitsVal_byteToBits, bitsVal_byteToBits] at h1
        exact h1
      rw [hb]
      rfl
  refine ⟨bytes, root, build_codes HuffmanCoding.init root, encoded,
    8 - encoded.length % 8, hcomp, hget, rfl, hpadlen.1, hpadlen.2, hhead,
    hrp, ?_⟩
  by_cases hk : 2 ≤ (firstOcc text).length
  · rw [hencdef, decode_pairs root hwf (hint hk) text hlk]
  · have hk1 : (firstOcc text).length = 1 := by
      have := firstOcc_ne_nil h
      rcases hfe : firstOcc text with _ | ⟨x, xs⟩
      · exact absurd hfe this
      · rw [hfe] at hk
        simp only [List.length_cons] at hk ⊢
        omega
    have hroot_leaf : ∃ c0 f0, root = Tree.node (some c0) f0 .nil .nil := by
      rcases hwf with ⟨c0, f0⟩ | ⟨f0, hl, hr⟩
      · exact ⟨_, _, rfl⟩
      · exfalso
        rename_i l r
        have hcl := WF_chars_pos hl
        have hcr := WF_chars_pos hr
        have hlen := hperm.length_eq
        rw [hk1] at hlen
        have : (Tree.node none f0 l r).chars.length
            = l.chars.length + r.chars.length := by
          show (([] ++ l.chars) ++ r.chars).length = _
          rw [List.nil_append, List.length_append]
        omega
    obtain ⟨c0, f0, rfl⟩ := hroot_leaf
    have hcw : ∀ c ∈ text,
        ((build_codes HuffmanCoding.init
          (Tree.node (some c0) f0 .nil .nil)).codes c).getD [] = [] := by
      intro c hc
      obtain ⟨v, hvmem, hv⟩ := hlk c hc
      rw [codeList_node_some] at hvmem
      simp [Tree.codeList] at hvmem
      rw [hv, hvmem.2]
      rfl
    have henc_nil : encoded = [] := by
      rw [hencdef]
      rw [List.flatten_eq_nil_iff]
      intro seg hseg
      obtain ⟨x, hx, rfl⟩ := List.mem_map.mp hseg
      exact hcw x hx
    rw [henc_nil]
    rfl

/-- C6 (amended): after a fresh compress, the code table maps exactly
the distinct input symbols, each code is the root-to-leaf path ('0'
left, '1' right), distinct symbols have mutually non-prefix codes, and
when the input has at least two distinct symbols every code is
non-empty (with a single distinct symbol the unique code is ""). -/
theorem code_table_properties (text : List Char) (h : text ≠ []) :
    ∃ bytes root st, compress HuffmanCoding.init text = .ok (bytes, root, st) ∧
      (∀ c, (∃ v, st.codes c = some v) ↔ c ∈ firstOcc text) ∧
      (∀ c v, st.codes c = some v → IsPath root v c) ∧
      (∀ c1 v1 c2 v2, st.codes c1 = some v1 → st.codes c2 = some v2 →
        c1 ≠ c2 → ¬ (v1 <+: v2)) ∧
      (2 ≤ (firstOcc text).length → ∀ c v, st.codes c = some v → v ≠ []) := by
  obtain ⟨root, encoded, bytes, hmerge, hwf, hperm, hint, hget, hencdef, hbits,
    hpack, hflat, hlt, hlk, hcomp⟩ := compress_ok HuffmanCoding.init text h
  have hbc : build_codes HuffmanCoding.init root
      = applyPairs (Tree.codeList root []) HuffmanCoding.init :=
    build_codes_helper_eq root [] HuffmanCoding.init
  have hmem_of_codes : ∀ c v,
      (build_codes HuffmanCoding.init root).codes c = some v →
      (c, v) ∈ Tree.codeList root [] := by
    intro c v hcv
    rw [hbc] at hcv
    rcases applyPairs_codes_some _ _ _ _ hcv with hm | hinit
    · exact hm
    · exact absurd hinit (by simp [HuffmanCoding.init])
  refine ⟨bytes, root, build_codes HuffmanCoding.init root, hcomp, ?_, ?_, ?_, ?_⟩
  · intro c
    constructor
    · rintro ⟨v, hv⟩
      have hm := hmem_of_codes c v hv
      have : c ∈ (Tree.codeList root []).map Prod.fst :=
        List.mem_map.mpr ⟨(c, v), hm, rfl⟩
      rw [codeList_map_fst] at this
      exact hperm.mem_iff.mp this
    · intro hc
      obtain ⟨v, _, hv⟩ := hlk c ((firstOcc_mem text c).mp hc)
      exact ⟨v, hv⟩
  · intro c v hv
    obtain ⟨suffix, hs, hpath⟩ := codeList_isPath hwf [] c v (hmem_of_codes c v hv)
    rw [List.nil_append] at hs
    rw [hs]
    exact hpath
  · intro c1 v1 c2 v2 h1 h2 hne
    have hm1 := hmem_of_codes c1 v1 h1
    have hm2 := hmem_of_codes c2 v2 h2
    have hvne : v1 ≠ v2 := by
      intro hveq
      subst hveq
      have := List.inj_on_of_nodup_map (codeList_snd_nodup hwf []) hm1 hm2 rfl
      exact hne (congrArg Prod.fst this)
    have hs1 : v1 ∈ (Tree.codeList root []).map Prod.snd :=
      List.mem_map.mpr ⟨(c1, v1), hm1, rfl⟩
    have hs2 : v2 ∈ (Tree.codeList root []).map Prod.snd :=
      List.mem_map.mpr ⟨(c2, v2), hm2, rfl⟩
    exact ((codeList_pairwise hwf []).forall
      (fun a b hab => ⟨hab.2, hab.1⟩) hs1 hs2 hvne).1
  · intro hk c v hv
    obtain ⟨f, l, r, rfl⟩ := hint hk
    exact codeList_nonempty_internal (c, v) (hmem_of_codes c v hv)

/-- C6 counterexample: on the single-symbol input "b" the table maps
'b' to the empty string, not to a non-empty code. -/
theorem codes_empty_code_cex :
    ∃ bytes root st, compress HuffmanCoding.init ['b'] = .ok (bytes, root, st) ∧
      st.codes 'b' = some [] := by
  exact ⟨[8, 0], Tree.node (some 'b') 1 .nil .nil,
    ⟨upd (fun _ => none) 'b' [], upd (fun _ => none) [] 'b'⟩, rfl, by decide⟩

/-- C7: compress is a deterministic function of the input text: the byte
buffer is the same whatever the incoming dict state is (so two fresh
instances agree), and the resulting symbol-to-code entries agree on
every input symbol. -/
theorem compress_deterministic (s1 s2 : HuffmanCoding) (text : List Char) :
    compressBytes s1 text = compressBytes s2 text ∧
    ∀ c ∈ text, (compressState s1 text).codes c
      = (compressState s2 text).codes c := by
  by_cases h : text = []
  · subst h
    exact ⟨rfl, fun c hc => by simp at hc⟩
  · obtain ⟨root1, enc1, bytes1, hmerge1, hwf1, hperm1, _, _, hencdef1, _,
      hpack1, _, _, hlk1, hcomp1⟩ := compress_ok s1 text h
    obtain ⟨root2, enc2, bytes2, hmerge2, hwf2, hperm2, _, _, hencdef2, _,
      hpack2, _, _, hlk2, hcomp2⟩ := compress_ok s2 text h
    have hroot : root1 = root2 := by
      have := hmerge1.symm.trans hmerge2
      exact Except.ok.inj this
    subst hroot
    have hfst_nodup : ((Tree.codeList root1 []).map Prod.fst).Nodup := by
      rw [codeList_map_fst]
      exact hperm1.symm.nodup (firstOcc_nodup text)
    have hcodes_agree : ∀ c ∈ text, (build_codes s1 root1).codes c
        = (build_codes s2 root1).codes c := by
      intro c hc
      obtain ⟨v1, hm1, hv1⟩ := hlk1 c hc
      obtain ⟨v2, hm2, hv2⟩ := hlk2 c hc
      have hv12 : v1 = v2 := by
        have := List.inj_on_of_nodup_map hfst_nodup hm1 hm2 rfl
        exact congrArg Prod.snd this
      rw [hv1, hv2, hv12]
    have henc : enc1 = enc2 := by
      rw [hencdef1, hencdef2]
      congr 1
      exact List.map_congr_left (fun c hc => by rw [hcodes_agree c hc])
    have hbytes : bytes1 = bytes2 := by
      rw [henc] at hpack1
      exact Except.ok.inj (hpack1.symm.trans hpack2)
    constructor
    · unfold compressBytes
      rw [hcomp1, hcomp2, hbytes]
    · intro c hc
      unfold compressState
      rw [hcomp1, hcomp2]
      exact hcodes_agree c hc

/-- The dict state after any compress call: the recorded pairs are
folded over the incoming state; a failing call (empty input) leaves the
state unchanged, matching the source, which raises before any dict
write. -/
theorem compressState_eq (st : HuffmanCoding) (text : List Char) :
    compressState st text = applyPairs (writtenPairs text) st := by
  by_cases h : text = []
  · subst h
    rfl
  · obtain ⟨root, enc, bytes, hmerge, _, _, _, _, _, _, _, _, _, _, hcomp⟩ :=
      compress_ok st text h
    unfold compressState writtenPairs
    rw [hcomp, hmerge]
    exact build_codes_helper_eq root [] st

/-- C10: compress never removes dict entries: after compress(A) then
compress(B) on the same instance, every entry whose key is not written
by the B call survives with its value. -/
theorem tables_monotone (s : HuffmanCoding) (A B : List Char) :
    (∀ c code, (compressState s A).codes c = some code →
      c ∉ (writtenPairs B).map Prod.fst →
      (compressState (compressState s A) B).codes c = some code) ∧
    (∀ code ch, (compressState s A).reverse_mapping code = some ch →
      code ∉ (writtenPairs B).map Prod.snd →
      (compressState (compressState s A) B).reverse_mapping code = some ch) := by
  constructor
  · intro c code hc hnot
    rw [compressState_eq (compressState s A) B,
      applyPairs_codes_not_mem _ _ _ hnot]
    exact hc
  · intro code ch hc hnot
    rw [compressState_eq (compressState s A) B,
      applyPairs_rev_not_mem _ _ _ hnot]
    exact hc

/-! ### Witnesses: the theorems applied at concrete inputs -/

theorem roundtrip_two_distinct_witness :
    2 ≤ (firstOcc ['a', 'b']).length ∧
    ∃ bytes root st, compress HuffmanCoding.init ['a', 'b']
        = .ok (bytes, root, st) ∧ decompress st bytes = .ok ['a', 'b'] :=
  ⟨by decide, roundtrip_two_distinct ['a', 'b'] (by decide)⟩

theorem decompress_total_witness :
    ([255] : List Nat) ≠ [] ∧
    ∃ s, decompress HuffmanCoding.init [255] = .ok s :=
  ⟨by decide, decompress_total HuffmanCoding.init [255] (by decide)⟩

theorem decode_silently_drops_leftover_witness :
    ([6, 64] : List Nat) ≠ [] ∧
    ∃ payload dec leftover,
      remove_padding ((([6, 64] : List Nat).map byteToBits).flatten)
        = .ok payload ∧
      decodeGo (HuffmanCoding.mk (fun _ => none)
        (upd (fun _ => none) ['0'] 'a')).reverse_mapping payload [] []
        = (dec, leftover) ∧
      decompress ⟨fun _ => none, upd (fun _ => none) ['0'] 'a'⟩ [6, 64]
        = .ok dec :=
  ⟨by decide, decode_silently_drops_leftover
    ⟨fun _ => none, upd (fun _ => none) ['0'] 'a'⟩ [6, 64] (by decide)⟩

theorem padding_invariant_witness :
    (['a', 'a', 'b', 'b', 'b', 'c', 'c'] : List Char) ≠ [] ∧
    ∃ bytes root st encoded p,
      compress HuffmanCoding.init ['a', 'a', 'b', 'b', 'b', 'c', 'c']
        = .ok (bytes, root, st) ∧
      get_encoded_text st.codes ['a', 'a', 'b', 'b', 'b', 'c', 'c']
        = .ok encoded ∧
      p = 8 - encoded.length % 8 ∧ 1 ≤ p ∧ p ≤ 8 ∧
      bytes.head? = some p ∧
      remove_padding ((bytes.map byteToBits).flatten) = .ok encoded ∧
      (decodeGo st.reverse_mapping encoded [] []).2 = [] :=
  ⟨by decide, padding_invariant ['a', 'a', 'b', 'b', 'b', 'c', 'c'] (by decide)⟩

theorem code_table_properties_witness :
    (['a', 'c'] : List Char) ≠ [] ∧
    ∃ bytes root st, compress HuffmanCoding.init ['a', 'c']
        = .ok (bytes, root, st) ∧
      (∀ c, (∃ v, st.codes c = some v) ↔ c ∈ firstOcc ['a', 'c']) ∧
      (∀ c v, st.codes c = some v → IsPath root v c) ∧
      (∀ c1 v1 c2 v2, st.codes c1 = some v1 → st.codes c2 = some v2 →
        c1 ≠ c2 → ¬ (v1 <+: v2)) ∧
      (2 ≤ (firstOcc ['a', 'c']).length →
        ∀ c v, st.codes c = some v → v ≠ []) :=
  ⟨by decide, code_table_properties ['a', 'c'] (by decide)⟩

theorem compress_deterministic_witness :
    compressBytes HuffmanCoding.init ['a', 'b']
      = compressBytes ⟨upd (fun _ => none) 'z' ['1', '1'], fun _ => none⟩
          ['a', 'b'] ∧
    ∀ c ∈ (['a', 'b'] : List Char),
      (compressState HuffmanCoding.init ['a', 'b']).codes c
        = (compressState ⟨upd (fun _ => none) 'z' ['1', '1'], fun _ => none⟩
            ['a', 'b']).codes c :=
  compress_deterministic HuffmanCoding.init
    ⟨upd (fun _ => none) 'z' ['1', '1'], fun _ => none⟩ ['a', 'b']

theorem tables_monotone_witness :
    (compressState HuffmanCoding.init ['a', 'b']).codes 'a' = some ['0'] ∧
    'a' ∉ (writtenPairs ['b', 'c']).map Prod.fst ∧
    (compressState (compressState HuffmanCoding.init ['a', 'b'])
      ['b', 'c']).codes 'a' = some ['0'] :=
  ⟨by decide, by decide,
    (tables_monotone HuffmanCoding.init ['a', 'b'] ['b', 'c']).1 'a' ['0']
      (by decide) (by decide)⟩

theorem decompress_zero_header_witness :
    decompress HuffmanCoding.init [0, 171] = .ok [] :=
  decompress_zero_header HuffmanCoding.init [171]

theorem compress_empty_index_error_witness :
    compress HuffmanCoding.init [] = .error .indexError :=
  compress_empty_index_error HuffmanCoding.init

end Huff
